import Mathlib

/-
Verification of the diagram editing engine of the AI-Diagrammer repository.
The definitions below are shallow embeddings of the TypeScript source:
geometry and bounds (lib/drawing), the data model (types/diagram), the
history manager (src/hooks/useHistory.ts), the automatic layout engine
(lib/layout), the canvas key and pointer handlers (components/Canvas), and
the document import handler (components/DiagramEditor in src/App.tsx).
Numbers of the source are modelled as rationals, JavaScript arrays and
insertion ordered Maps as Lean lists.
-/

namespace Diagrammer

/-- Canvas space coordinates, from the Position interface of types/diagram. -/
structure Position where
  x : ℚ
  y : ℚ
  deriving DecidableEq

/-- Shape extent, from the Dimensions interface of types/diagram. -/
structure Dimensions where
  width : ℚ
  height : ℚ
  deriving DecidableEq

/-- Node kinds, from the NodeType union of types/diagram. -/
inductive NodeType where
  | rectangle
  | ellipse
  | diamond
  | image
  deriving DecidableEq

/-- A diagram node, from the DiagramNode interface of types/diagram. -/
structure DiagramNode where
  id : String
  type : NodeType
  text : String
  position : Position
  dimensions : Dimensions
  imageUrl : Option String
  deriving DecidableEq

/-- A directed edge between node ids; fromId and toId embed the fields
named from and to in the DiagramEdge interface of types/diagram. -/
structure DiagramEdge where
  id : String
  fromId : String
  toId : String
  label : Option String
  deriving DecidableEq

/-- A freehand stroke, from the DrawingPath interface of types/diagram. -/
structure DrawingPath where
  id : String
  points : List Position
  color : String
  width : ℚ
  deriving DecidableEq

/-- The document, from the DiagramData interface of types/diagram; the
paths field is optional there, hence the Option. -/
structure DiagramData where
  nodes : List DiagramNode
  edges : List DiagramEdge
  paths : Option (List DrawingPath)
  deriving DecidableEq

/-- Shape of the CANVAS_BOUNDS constant of lib/drawing. -/
structure Bounds where
  minX : ℚ
  minY : ℚ
  maxX : ℚ
  maxY : ℚ
  width : ℚ
  height : ℚ

/-- CANVAS_BOUNDS of lib/drawing: min 50, max 2950, size 3000 per axis. -/
def CANVAS_BOUNDS : Bounds :=
  { minX := 50, minY := 50, maxX := 2950, maxY := 2950, width := 3000, height := 3000 }

/-- constrainPosition of lib/drawing: clamp each axis so the bounding box
of the shape stays inside CANVAS_BOUNDS. -/
def constrainPosition (position : Position) (dimensions : Dimensions) : Position :=
  { x := max CANVAS_BOUNDS.minX (min position.x (CANVAS_BOUNDS.maxX - dimensions.width)),
    y := max CANVAS_BOUNDS.minY (min position.y (CANVAS_BOUNDS.maxY - dimensions.height)) }

/-- isWithinBounds of lib/drawing: the pure containment check. -/
def isWithinBounds (position : Position) (dimensions : Dimensions) : Bool :=
  decide (CANVAS_BOUNDS.minX ≤ position.x) &&
  decide (CANVAS_BOUNDS.minY ≤ position.y) &&
  decide (position.x + dimensions.width ≤ CANVAS_BOUNDS.maxX) &&
  decide (position.y + dimensions.height ≤ CANVAS_BOUNDS.maxY)

/-- Clamping to an interval given by a lower and an upper expression is
idempotent, in any linear order. -/
theorem clamp_clamp {α : Type} [LinearOrder α] (lo hi a : α) :
    max lo (min (max lo (min a hi)) hi) = max lo (min a hi) := by
  rw [min_max_distrib_right, min_eq_left (min_le_right a hi), ← max_assoc,
    max_eq_left (min_le_left lo hi)]

/-- Claim C5: constrainPosition is idempotent for every position and
dimensions, and whenever the width is at most maxX minus minX and the
height at most maxY minus minY (bounds 50..2950 per axis), the clamped
position satisfies isWithinBounds. -/
theorem constrainPosition_idempotent_and_within_bounds (p : Position) (d : Dimensions) :
    constrainPosition (constrainPosition p d) d = constrainPosition p d ∧
    (d.width ≤ CANVAS_BOUNDS.maxX - CANVAS_BOUNDS.minX →
      d.height ≤ CANVAS_BOUNDS.maxY - CANVAS_BOUNDS.minY →
      isWithinBounds (constrainPosition p d) d = true) := by
  constructor
  · simp only [constrainPosition]
    exact congrArg₂ Position.mk (clamp_clamp _ _ _) (clamp_clamp _ _ _)
  · intro hw hh
    simp only [CANVAS_BOUNDS] at hw hh
    simp only [isWithinBounds, constrainPosition, CANVAS_BOUNDS, Bool.and_eq_true,
      decide_eq_true_eq]
    refine ⟨⟨⟨le_max_left _ _, le_max_left _ _⟩, ?_⟩, ?_⟩
    · have hx : max (50 : ℚ) (min p.x (2950 - d.width)) ≤ 2950 - d.width :=
        max_le (by linarith) (min_le_right _ _)
      linarith
    · have hy : max (50 : ℚ) (min p.y (2950 - d.height)) ≤ 2950 - d.height :=
        max_le (by linarith) (min_le_right _ _)
      linarith

/-- History manager state, from the HistoryState interface of useHistory. -/
structure HistoryState (α : Type) where
  past : List α
  present : α
  future : List α
  deriving DecidableEq

/-- MAX_HISTORY_SIZE of useHistory. -/
def MAX_HISTORY_SIZE : Nat := 50

/-- setState of useHistory: with skipHistory (or during an undo or redo
action) only the present document is replaced; otherwise the old present is
pushed onto past, the oldest past entry is shifted off once the length
would exceed MAX_HISTORY_SIZE, and future is cleared. -/
def setState {α : Type} (h : HistoryState α) (newState : α) (skipHistory : Bool) :
    HistoryState α :=
  if skipHistory then { h with present := newState }
  else
    let newPast := h.past ++ [h.present]
    { past := if newPast.length > MAX_HISTORY_SIZE then newPast.drop 1 else newPast,
      present := newState,
      future := [] }

/-- A commit: setState with skipHistory false. -/
def commit {α : Type} (h : HistoryState α) (newState : α) : HistoryState α :=
  setState h newState false

/-- Replacing the present only: setState with skipHistory true. -/
def replacePresent {α : Type} (h : HistoryState α) (newState : α) : HistoryState α :=
  setState h newState true

/-- undo of useHistory: none when past is empty, else pop the last past
entry into present and push the old present onto the front of future. -/
def undo {α : Type} (h : HistoryState α) : Option (HistoryState α) :=
  match h.past.getLast? with
  | none => none
  | some prev =>
      some { past := h.past.dropLast, present := prev, future := h.present :: h.future }

/-- redo of useHistory: none when future is empty, else pop the first
future entry into present and push the old present onto past. -/
def redo {α : Type} (h : HistoryState α) : Option (HistoryState α) :=
  match h.future with
  | [] => none
  | next :: rest =>
      some { past := h.past ++ [h.present], present := next, future := rest }

/-- reset of useHistory: clear both stacks and set the present. -/
def reset {α : Type} (newState : α) : HistoryState α :=
  { past := [], present := newState, future := [] }

/-- Unfolded shape of a commit. -/
theorem commit_shape {α : Type} (h : HistoryState α) (d : α) :
    commit h d =
      { past := if (h.past ++ [h.present]).length > 50
                then (h.past ++ [h.present]).drop 1 else h.past ++ [h.present],
        present := d, future := [] } := rfl

/-- History states reachable from the initial state by the operations that
useHistory exposes: setState with and without skipHistory, undo, redo and
reset. -/
inductive Reachable {α : Type} (s0 : α) : HistoryState α → Prop where
  | init : Reachable s0 { past := [], present := s0, future := [] }
  | step_commit {h : HistoryState α} (d : α) :
      Reachable s0 h → Reachable s0 (commit h d)
  | step_replace {h : HistoryState α} (d : α) :
      Reachable s0 h → Reachable s0 (replacePresent h d)
  | step_undo {h h' : HistoryState α} :
      Reachable s0 h → undo h = some h' → Reachable s0 h'
  | step_redo {h h' : HistoryState α} :
      Reachable s0 h → redo h = some h' → Reachable s0 h'
  | step_reset {h : HistoryState α} (d : α) :
      Reachable s0 h → Reachable s0 (reset d)

/-- Inverting undo: a successful undo comes from a non empty past and has
the stated shape. -/
theorem undo_eq_some {α : Type} {h h' : HistoryState α} (e : undo h = some h') :
    ∃ prev, h.past.getLast? = some prev ∧
      h' = { past := h.past.dropLast, present := prev, future := h.present :: h.future } := by
  unfold undo at e
  cases hl : h.past.getLast? with
  | none => rw [hl] at e; exact absurd e (by simp)
  | some prev =>
      rw [hl] at e
      exact ⟨prev, rfl, (Option.some.inj e).symm⟩

/-- Inverting redo: a successful redo comes from a non empty future and has
the stated shape. -/
theorem redo_eq_some {α : Type} {h h' : HistoryState α} (e : redo h = some h') :
    ∃ next rest, h.future = next :: rest ∧
      h' = { past := h.past ++ [h.present], present := next, future := rest } := by
  unfold redo at e
  cases hf : h.future with
  | nil => rw [hf] at e; exact absurd e (by simp)
  | cons next rest =>
      rw [hf] at e
      exact ⟨next, rest, rfl, (Option.some.inj e).symm⟩

/-- Size invariant: in every reachable history state the lengths of past
and future sum to at most MAX_HISTORY_SIZE. -/
theorem reachable_size_invariant {α : Type} {s0 : α} {S : HistoryState α}
    (h : Reachable s0 S) : S.past.length + S.future.length ≤ 50 := by
  induction h with
  | init => simp
  | step_commit d _ ih =>
      rw [commit_shape]
      dsimp only
      split
      · simp only [List.length_drop, List.length_append, List.length_cons,
          List.length_nil]
        omega
      · rename_i hc
        simp only [List.length_append, List.length_cons, List.length_nil] at hc ⊢
        omega
  | step_replace d _ ih =>
      simpa [replacePresent, setState] using ih
  | @step_undo h _ _ e ih =>
      obtain ⟨prev, hl, rfl⟩ := undo_eq_some e
      have hne2 : h.past ≠ [] := fun hnil => by rw [hnil] at hl; simp at hl
      have hpos : 0 < h.past.length := List.length_pos.mpr hne2
      dsimp only
      simp only [List.length_dropLast, List.length_cons]
      omega
  | step_redo _ e ih =>
      obtain ⟨next, rest, hf, rfl⟩ := redo_eq_some e
      rw [hf] at ih
      dsimp only
      simp only [List.length_append, List.length_cons, List.length_nil] at ih ⊢
      omega
  | step_reset d _ _ => simp [reset]

/-- Commits that stay under the bound extend past by the old present. -/
theorem foldl_commit_past {α : Type} :
    ∀ (docs : List α) (p f : List α) (s0 : α), p.length + docs.length ≤ 50 →
      (List.foldl commit (⟨p, s0, f⟩ : HistoryState α) docs).past =
        p ++ (s0 :: docs).dropLast := by
  intro docs
  induction docs with
  | nil => intro p f s0 _; simp
  | cons d rest ih =>
      intro p f s0 hlen
      have hnogrow : ¬ ((p ++ [s0]).length > 50) := by
        simp only [List.length_append, List.length_cons, List.length_nil]
        simp only [List.length_cons] at hlen
        omega
      have hstep : commit (⟨p, s0, f⟩ : HistoryState α) d =
          (⟨p ++ [s0], d, []⟩ : HistoryState α) := by
        rw [commit_shape]
        dsimp only
        rw [if_neg hnogrow]
      simp only [List.foldl_cons]
      rw [hstep, ih (p ++ [s0]) [] d (by
        simp only [List.length_append, List.length_cons, List.length_nil] at hlen ⊢
        omega)]
      simp [List.dropLast]

/-- The present after a run of commits is the last committed document, or
the starting present when there is none. -/
theorem foldl_commit_present {α : Type} :
    ∀ (docs : List α) (p f : List α) (s0 : α),
      (List.foldl commit (⟨p, s0, f⟩ : HistoryState α) docs).present =
        (s0 :: docs).getLast (List.cons_ne_nil s0 docs) := by
  intro docs
  induction docs with
  | nil => intro p f s0; simp
  | cons d rest ih =>
      intro p f s0
      simp only [List.foldl_cons]
      have hshape : commit (⟨p, s0, f⟩ : HistoryState α) d =
          (⟨(commit (⟨p, s0, f⟩ : HistoryState α) d).past, d, []⟩ : HistoryState α) := rfl
      rw [hshape, ih]
      rw [List.getLast_cons (List.cons_ne_nil d rest)]

/-- Claim C2: every reachable history state keeps at most 50 past entries,
and a run of 51 commits from an initial state leaves exactly 50 past
entries, namely the 50 most recently pushed documents: the single evicted
entry is the very first state pushed onto past (the initial present),
never the whole buffer and never a newer entry. -/
theorem history_bound_and_fifo_eviction :
    (∀ (α : Type) (s0 : α) (S : HistoryState α), Reachable s0 S → S.past.length ≤ 50) ∧
    (∀ (α : Type) (s0 : α) (docs : List α), docs.length = 51 →
      (List.foldl commit (⟨[], s0, []⟩ : HistoryState α) docs).past = docs.dropLast ∧
      (List.foldl commit (⟨[], s0, []⟩ : HistoryState α) docs).past.length = 50) := by
  constructor
  · intro α s0 S h
    have hs := reachable_size_invariant h
    omega
  · intro α s0 docs hlen
    have hne : docs ≠ [] := by intro e; rw [e] at hlen; simp at hlen
    have hsplit : docs.dropLast ++ [docs.getLast hne] = docs :=
      List.dropLast_append_getLast hne
    have hys : docs.dropLast.length = 50 := by
      rw [List.length_dropLast, hlen]
    suffices hmain :
        (List.foldl commit (⟨[], s0, []⟩ : HistoryState α) docs).past = docs.dropLast by
      exact ⟨hmain, by rw [hmain, hys]⟩
    conv_lhs => rw [← hsplit]
    rw [List.foldl_append]
    have hpast :
        (List.foldl commit (⟨[], s0, []⟩ : HistoryState α) docs.dropLast).past =
          [] ++ (s0 :: docs.dropLast).dropLast :=
      foldl_commit_past docs.dropLast [] [] s0 (by simp [hys])
    have hpres :
        (List.foldl commit (⟨[], s0, []⟩ : HistoryState α) docs.dropLast).present =
          (s0 :: docs.dropLast).getLast (List.cons_ne_nil _ _) :=
      foldl_commit_present docs.dropLast [] [] s0
    set S1 := List.foldl commit (⟨[], s0, []⟩ : HistoryState α) docs.dropLast with hS1
    have hrecombine : S1.past ++ [S1.present] = s0 :: docs.dropLast := by
      rw [hpast, hpres]
      simpa using List.dropLast_append_getLast (l := s0 :: docs.dropLast)
        (List.cons_ne_nil _ _)
    simp only [List.foldl_cons, List.foldl_nil]
    rw [commit_shape]
    dsimp only
    rw [hrecombine]
    rw [if_pos (by simp [hys])]
    simp

/-- Concrete instance discharging the statement of claim C2: the initial
state over natural number documents is reachable and satisfies the bound,
and a concrete run of 51 commits keeps the 50 newest entries. -/
theorem history_bound_and_fifo_eviction_witness :
    (⟨[], (0 : ℕ), []⟩ : HistoryState ℕ).past.length ≤ 50 ∧
    (List.foldl commit (⟨[], (99 : ℕ), []⟩ : HistoryState ℕ) (List.range 51)).past =
      (List.range 51).dropLast :=
  ⟨history_bound_and_fifo_eviction.1 ℕ 0 _ Reachable.init,
   (history_bound_and_fifo_eviction.2 ℕ 99 (List.range 51) (by simp)).1⟩

/-- Claim C1: for every reachable history state with a non empty past,
undo pops the last past entry into present while pushing the old present
onto the front of future, and the subsequent redo restores the original
state exactly. -/
theorem undo_redo_roundtrip {α : Type} (s0 : α) (S : HistoryState α)
    (_hreach : Reachable s0 S) (hpast : S.past ≠ []) :
    ∃ S', undo S = some S' ∧
      S'.past = S.past.dropLast ∧
      S.past.getLast? = some S'.present ∧
      S'.future = S.present :: S.future ∧
      redo S' = some S := by
  have hl : S.past.getLast? = some (S.past.getLast hpast) :=
    List.getLast?_eq_getLast S.past hpast
  refine ⟨{ past := S.past.dropLast, present := S.past.getLast hpast,
            future := S.present :: S.future }, ?_, rfl, hl, rfl, ?_⟩
  · unfold undo
    rw [hl]
  · show some (⟨S.past.dropLast ++ [S.past.getLast hpast], S.present, S.future⟩ :
      HistoryState α) = some S
    rw [List.dropLast_append_getLast hpast]

/-- Concrete instance discharging the hypotheses of claim C1: the state
reached by one commit of document 1 over initial document 0. -/
theorem undo_redo_roundtrip_witness :
    ∃ S', undo (⟨[0], 1, []⟩ : HistoryState ℕ) = some S' ∧
      S'.past = ([0] : List ℕ).dropLast ∧
      ([0] : List ℕ).getLast? = some S'.present ∧
      S'.future = 1 :: [] ∧
      redo S' = some (⟨[0], 1, []⟩ : HistoryState ℕ) :=
  undo_redo_roundtrip 0 ⟨[0], 1, []⟩
    (by
      have h0 : Reachable (0 : ℕ) (⟨[], 0, []⟩ : HistoryState ℕ) := Reachable.init
      have h1 := Reachable.step_commit (1 : ℕ) h0
      have hc : commit (⟨[], 0, []⟩ : HistoryState ℕ) 1 =
          (⟨[0], 1, []⟩ : HistoryState ℕ) := by
        rw [commit_shape]
        simp
      rw [hc] at h1
      exact h1)
    (by simp)

/-- A value of the nodeMap of autoLayout in lib/layout. The key is the map
key, idx remembers which element of the input node array the stored node
object is (JavaScript aliasing: the map holds references into the shallow
copied node array), and level, children and parents are the mutable layout
fields, with their initial values 0, empty, empty. -/
structure LayoutEntry where
  key : String
  idx : Nat
  node : DiagramNode
  level : Int
  children : List String
  parents : List String
  deriving DecidableEq

/-- Membership test on a list of strings, as Array.includes or Set.has. -/
def memStr : List String → String → Bool
  | [], _ => false
  | s :: rest, k => if s = k then true else memStr rest k

/-- Lookup in an insertion ordered map, as Map.get. -/
def mapGet : List LayoutEntry → String → Option LayoutEntry
  | [], _ => none
  | e :: rest, k => if e.key = k then some e else mapGet rest k

/-- Map.set: replace the entry with this key in place, or append it. -/
def mapSet : List LayoutEntry → String → LayoutEntry → List LayoutEntry
  | [], _, e => [e]
  | e0 :: rest, k, e => if e0.key = k then e :: rest else e0 :: mapSet rest k e

/-- Mutation of the entry stored under a key, as the in place object
mutation of the source. -/
def mapModify : List LayoutEntry → String → (LayoutEntry → LayoutEntry) → List LayoutEntry
  | [], _, _ => []
  | e :: rest, k, f => if e.key = k then f e :: rest else e :: mapModify rest k f

/-- The nodeMap building loop of autoLayout: every node is stored under its
id with level 0 and empty adjacency, later nodes with a duplicate id
replacing earlier ones in place, as Map.set does. -/
def buildMapAux (i : Nat) : List DiagramNode → List LayoutEntry → List LayoutEntry
  | [], m => m
  | n :: rest, m =>
      buildMapAux (i + 1) rest
        (mapSet m n.id { key := n.id, idx := i, node := n, level := 0,
                         children := [], parents := [] })

/-- The nodeMap of autoLayout after the node loop. -/
def buildMap (nodes : List DiagramNode) : List LayoutEntry :=
  buildMapAux 0 nodes []

/-- The edge loop of autoLayout: when both endpoints are in the map, the
target id is pushed onto the children of the source entry and the source id
onto the parents of the target entry. -/
def addEdges (m0 : List LayoutEntry) (edges : List DiagramEdge) : List LayoutEntry :=
  edges.foldl
    (fun m edge =>
      if (mapGet m edge.fromId).isSome && (mapGet m edge.toId).isSome then
        mapModify
          (mapModify m edge.fromId
            (fun e => { e with children := e.children ++ [edge.toId] }))
          edge.toId (fun e => { e with parents := e.parents ++ [edge.fromId] })
      else m)
    m0

/-- Root selection of autoLayout: the keys of every entry with no parents,
in map order; when that set is empty, the key of the first map entry. -/
def rootKeys (m : List LayoutEntry) : List String :=
  let roots := m.filter (fun e => e.parents.isEmpty)
  if roots.isEmpty then
    match m with
    | [] => []
    | e :: _ => [e.key]
  else roots.map (fun e => e.key)

/-- Total number of child references, an upper bound on breadth first
queue growth used as fuel. -/
def totalChildren (m : List LayoutEntry) : Nat :=
  m.foldl (fun acc e => acc + e.children.length) 0

/-- Largest element of a list of integers, as Math.max over a spread
nonempty array. -/
def maxList : List Int → Int
  | [] => 0
  | x :: xs => xs.foldl max x

/-- The breadth first level loop of autoLayout: pop the queue; skip visited
ids; otherwise mark visited, collect the levels of every parent currently
in the map (missing parents count -1 and are filtered out; unvisited
parents contribute their current, possibly still initial, level), set the
level to their maximum plus one when any remain, and enqueue the children.
The fuel argument only bounds the recursion; the callers pass enough for
the loop to drain its queue. -/
def bfsLevels : Nat → List LayoutEntry → List String → List String → List LayoutEntry
  | 0, m, _, _ => m
  | Nat.succ fuel, m, visited, queue =>
      match queue with
      | [] => m
      | currentId :: rest =>
          if memStr visited currentId then bfsLevels fuel m visited rest
          else
            match mapGet m currentId with
            | none => bfsLevels fuel m (currentId :: visited) rest
            | some current =>
                let parentLevels :=
                  (current.parents.map (fun pid =>
                    match mapGet m pid with
                    | some p => p.level
                    | none => -1)).filter (fun l => decide (0 ≤ l))
                let newLevel :=
                  match parentLevels with
                  | [] => current.level
                  | l :: ls => ls.foldl max l + 1
                bfsLevels fuel (mapSet m currentId { current with level := newLevel })
                  (currentId :: visited) (rest ++ current.children)

/-- The finished nodeMap of autoLayout: adjacency built from the edges,
levels assigned by the breadth first loop seeded with the root keys. -/
def levelMap (nodes : List DiagramNode) (edges : List DiagramEdge) : List LayoutEntry :=
  let m1 := addEdges (buildMap nodes) edges
  let roots := rootKeys m1
  bfsLevels (roots.length + totalChildren m1 + 1) m1 [] roots

/-- Entries of one level row, in map order, as the levelGroups grouping of
autoLayout collects them. -/
def rowOf (m : List LayoutEntry) (level : Int) : List LayoutEntry :=
  m.filter (fun e => decide (e.level = level))

/-- Entries placed before the given key within its row. -/
def beforeInRow (key : String) : List LayoutEntry → List LayoutEntry
  | [] => []
  | e :: rest => if e.key = key then [] else e :: beforeInRow key rest

/-- Summed node widths of a run of entries. -/
def sumWidths : List LayoutEntry → ℚ
  | [] => 0
  | e :: rest => e.node.dimensions.width + sumWidths rest

/-- LEVEL_SPACING of autoLayout. -/
def LEVEL_SPACING : ℚ := 180

/-- NODE_SPACING of autoLayout. -/
def NODE_SPACING : ℚ := 60

/-- START_X of autoLayout. -/
def START_X : ℚ := 100

/-- START_Y of autoLayout. -/
def START_Y : ℚ := 100

/-- The position the placement loop of autoLayout assigns to the node of a
map entry: its row is horizontally centered on START_X, the entries placed
left to right in row order with NODE_SPACING gaps; the y coordinate is
START_Y plus level times LEVEL_SPACING. -/
def entryPos (m : List LayoutEntry) (e : LayoutEntry) : Position :=
  let row := rowOf m e.level
  let totalRowWidth := sumWidths row + ((row.length - 1 : Nat) : ℚ) * NODE_SPACING
  let before := beforeInRow e.key row
  { x := (START_X - totalRowWidth / 2) + sumWidths before +
         (before.length : ℚ) * NODE_SPACING,
    y := START_Y + (e.level : ℚ) * LEVEL_SPACING }

/-- The node array after the placement loop: the element at index i is
position mutated exactly when it is the node object the map entry for its
id aliases (always so for unique ids; for a duplicate id only the latest
occurrence is in the map). -/
def layoutNodesAux (m : List LayoutEntry) : Nat → List DiagramNode → List DiagramNode
  | _, [] => []
  | i, n :: rest =>
      (match mapGet m n.id with
       | some e => if e.idx = i then { n with position := entryPos m e } else n
       | none => n) :: layoutNodesAux m (i + 1) rest

/-- Node array produced by autoLayout for a non empty input. -/
def autoLayoutCore (nodes : List DiagramNode) (edges : List DiagramEdge) :
    List DiagramNode :=
  layoutNodesAux (levelMap nodes edges) 0 nodes

/-- autoLayout of lib/layout as the value it returns: the input unchanged
when there are no nodes, else a document of the repositioned nodes and the
shallow copied edges, with no paths field. -/
def autoLayout (d : DiagramData) : DiagramData :=
  match d.nodes with
  | [] => d
  | _ :: _ => { nodes := autoLayoutCore d.nodes d.edges, edges := d.edges, paths := none }

/-- autoLayout of lib/layout together with its effect on the caller: the
first component is the returned document, the second the value the input
document holds after the call. The source copies the node and edge arrays
only shallowly and then assigns positions through the shared node objects,
so after the call the input document shows the repositioned nodes while
keeping its own edges array and paths field. -/
def autoLayoutEffect (d : DiagramData) : DiagramData × DiagramData :=
  match d.nodes with
  | [] => (d, d)
  | _ :: _ =>
      ({ nodes := autoLayoutCore d.nodes d.edges, edges := d.edges, paths := none },
       { nodes := autoLayoutCore d.nodes d.edges, edges := d.edges, paths := d.paths })

/-- Levels assigned by autoLayout, keyed in map order. -/
def autoLayoutLevels (d : DiagramData) : List (String × Int) :=
  (levelMap d.nodes d.edges).map (fun e => (e.key, e.level))

/-- Root keys autoLayout starts its traversal from. -/
def autoLayoutRootKeys (d : DiagramData) : List String :=
  rootKeys (addEdges (buildMap d.nodes) d.edges)

/-- A rectangle node named A at the origin with the default 180 by 80
extent. -/
def nodeA : DiagramNode :=
  { id := "A", type := NodeType.rectangle, text := "A", position := { x := 0, y := 0 },
    dimensions := { width := 180, height := 80 }, imageUrl := none }

/-- A rectangle node named B at the origin with the default 180 by 80
extent. -/
def nodeB : DiagramNode :=
  { id := "B", type := NodeType.rectangle, text := "B", position := { x := 0, y := 0 },
    dimensions := { width := 180, height := 80 }, imageUrl := none }

/-- A rectangle node named C at the origin with the default 180 by 80
extent. -/
def nodeC : DiagramNode :=
  { id := "C", type := NodeType.rectangle, text := "C", position := { x := 0, y := 0 },
    dimensions := { width := 180, height := 80 }, imageUrl := none }

/-- The fully cyclic three node document: nodes A, B, C in input order and
edges A to B, B to C, C to A. -/
def cyclicDoc : DiagramData :=
  { nodes := [nodeA, nodeB, nodeC],
    edges := [{ id := "e1", fromId := "A", toId := "B", label := none },
              { id := "e2", fromId := "B", toId := "C", label := none },
              { id := "e3", fromId := "C", toId := "A", label := none }],
    paths := none }

/-- Counterexample to claim C3: on the fully cyclic three node graph the
root falls back to A, but the levels autoLayout assigns are A at 1, B at 2
and C at 3, not A at 0, B at 1 and C at 2 as claimed; the fallback root
itself is lifted to level 1 because its unvisited parent C already counts
with its initial level 0. -/
theorem cyclic_levels_counterexample :
    autoLayoutLevels cyclicDoc = [("A", 1), ("B", 2), ("C", 3)] ∧
    autoLayoutLevels cyclicDoc ≠ [("A", 0), ("B", 1), ("C", 2)] := by decide

/-- Amended claim C3: on the fully cyclic three node graph autoLayout
falls back to the first node A as the single root and assigns A level 1,
B level 2 and C level 3: each visited node takes the maximum over the
current levels of all its parents plus one, with an unvisited parent
contributing its initial level 0, so the fallback root is itself lifted
above level 0. -/
theorem cyclic_levels_amended :
    autoLayoutRootKeys cyclicDoc = ["A"] ∧
    autoLayoutLevels cyclicDoc = [("A", 1), ("B", 2), ("C", 3)] := by decide

/-- Claim C8: autoLayout is deterministic; two documents with identical
node lists and identical edge lists get identical output node arrays
(positions included) and identical output edges, whatever their other
parts. -/
theorem autoLayout_deterministic (d1 d2 : DiagramData)
    (hn : d1.nodes = d2.nodes) (he : d1.edges = d2.edges) :
    (autoLayout d1).nodes = (autoLayout d2).nodes ∧
    (autoLayout d1).edges = (autoLayout d2).edges := by
  obtain ⟨n1, e1, p1⟩ := d1
  obtain ⟨n2, e2, p2⟩ := d2
  dsimp only at hn he
  subst hn
  subst he
  cases n1 with
  | nil => exact ⟨rfl, rfl⟩
  | cons a l => exact ⟨rfl, rfl⟩

/-- Concrete instance discharging the hypotheses of claim C8: the same
single node document laid out with different paths fields gives the same
node positions and edges. -/
theorem autoLayout_deterministic_witness :
    (autoLayout { nodes := [nodeA], edges := [], paths := none }).nodes =
      (autoLayout { nodes := [nodeA], edges := [], paths := some [] }).nodes ∧
    (autoLayout { nodes := [nodeA], edges := [], paths := none }).edges =
      (autoLayout { nodes := [nodeA], edges := [], paths := some [] }).edges :=
  autoLayout_deterministic _ _ rfl rfl

/-- Claim C9: a document of exactly two nodes with distinct ids and no
edges is laid out with both nodes at level 0, in one row at y equal to
START_Y, left to right in input order, with the left x of the second node
exactly the right edge of the first plus NODE_SPACING. -/
theorem autoLayout_two_nodes (n1 n2 : DiagramNode) (paths : Option (List DrawingPath))
    (h : n1.id ≠ n2.id) :
    autoLayoutLevels { nodes := [n1, n2], edges := [], paths := paths } =
      [(n1.id, 0), (n2.id, 0)] ∧
    ∃ x1 : ℚ,
      (autoLayout { nodes := [n1, n2], edges := [], paths := paths }).nodes =
        [{ n1 with position := { x := x1, y := START_Y } },
         { n2 with position := { x := x1 + n1.dimensions.width + NODE_SPACING,
                                 y := START_Y } }] := by
  have h2 : n2.id ≠ n1.id := Ne.symm h
  constructor
  · simp [autoLayoutLevels, levelMap, buildMap, buildMapAux, mapSet, addEdges,
      rootKeys, totalChildren, bfsLevels, mapGet, memStr, h, h2]
  · refine ⟨START_X - (n1.dimensions.width + n2.dimensions.width + NODE_SPACING) / 2, ?_⟩
    simp [autoLayout, autoLayoutCore, levelMap, buildMap, buildMapAux, mapSet,
      addEdges, rootKeys, totalChildren, bfsLevels, mapGet, memStr, layoutNodesAux,
      entryPos, rowOf, beforeInRow, sumWidths, NODE_SPACING, START_X, START_Y,
      LEVEL_SPACING, h, h2]

/-- Concrete instance discharging the hypotheses of claim C9: the two
default rectangles A and B with no edges. -/
theorem autoLayout_two_nodes_witness :
    autoLayoutLevels { nodes := [nodeA, nodeB], edges := [], paths := none } =
      [(nodeA.id, 0), (nodeB.id, 0)] ∧
    ∃ x1 : ℚ,
      (autoLayout { nodes := [nodeA, nodeB], edges := [], paths := none }).nodes =
        [{ nodeA with position := { x := x1, y := START_Y } },
         { nodeB with position := { x := x1 + nodeA.dimensions.width + NODE_SPACING,
                                    y := START_Y } }] :=
  autoLayout_two_nodes nodeA nodeB none (by decide)

/-- The placement loop keeps every node id in place. -/
theorem layoutNodesAux_preserves_ids (m : List LayoutEntry) :
    ∀ (i : Nat) (nodes : List DiagramNode),
      (layoutNodesAux m i nodes).map (fun n => n.id) = nodes.map (fun n => n.id) := by
  intro i nodes
  induction nodes generalizing i with
  | nil => rfl
  | cons n rest ih =>
      simp only [layoutNodesAux, List.map_cons]
      rw [ih]
      congr 1
      cases hg : mapGet m n.id with
      | none => rfl
      | some e =>
          dsimp only
          split <;> rfl

/-- Amended claim C10: autoLayout returns a fresh document value whose
nodes carry the input ids with positions assigned and whose edges are
structurally untouched, but it writes the positions through the node
objects shared with the input arrays, so after the call the input document
holds the repositioned nodes (identical to the output nodes) while its
edges array and paths field keep their old values; the input positions are
not preserved. -/
theorem autoLayout_effect_spec (d : DiagramData) :
    (autoLayoutEffect d).1 = autoLayout d ∧
    (autoLayout d).nodes.map (fun n => n.id) = d.nodes.map (fun n => n.id) ∧
    (autoLayout d).edges = d.edges ∧
    (autoLayoutEffect d).2.nodes = (autoLayout d).nodes ∧
    (autoLayoutEffect d).2.edges = d.edges ∧
    (autoLayoutEffect d).2.paths = d.paths := by
  obtain ⟨nodes, edges, paths⟩ := d
  cases nodes with
  | nil => exact ⟨rfl, rfl, rfl, rfl, rfl, rfl⟩
  | cons n rest =>
      refine ⟨rfl, ?_, rfl, rfl, rfl, rfl⟩
      exact layoutNodesAux_preserves_ids _ 0 (n :: rest)

/-- Counterexample to claim C10: laying out the single default rectangle A
leaves the input document changed, because the call rewrote the position
of the shared node object; the claimed preservation of the original
positions of the input fails. -/
theorem autoLayout_mutates_input :
    (autoLayoutEffect { nodes := [nodeA], edges := [], paths := none }).2 ≠
      { nodes := [nodeA], edges := [], paths := none } ∧
    (autoLayoutEffect { nodes := [nodeA], edges := [], paths := none }).2.nodes =
      (autoLayout { nodes := [nodeA], edges := [], paths := none }).nodes := by
  constructor
  · have hval :
        (autoLayoutEffect { nodes := [nodeA], edges := [], paths := none }).2.nodes =
          [{ nodeA with position := { x := 10, y := 100 } }] := by
      simp [autoLayoutEffect, autoLayoutCore, levelMap, buildMap, buildMapAux, mapSet,
        addEdges, rootKeys, totalChildren, bfsLevels, mapGet, memStr, layoutNodesAux,
        entryPos, rowOf, beforeInRow, sumWidths, NODE_SPACING, START_X, START_Y,
        LEVEL_SPACING, nodeA]
      norm_num
    intro hEq
    have hn := congrArg DiagramData.nodes hEq
    rw [hval] at hn
    simp [nodeA] at hn
  · rfl

/-- Pen branch of handleMouseUp in the Canvas component: with the pen tool
and a stroke in progress, the accumulated path is committed as a new
DrawingPath of the current pen color and fixed width 2 exactly when it has
more than 2 points, appended to the possibly absent paths of the document;
otherwise the document is left unchanged. The fresh path id, path dash
Date.now in the source, is a parameter. -/
def penMouseUp (d : DiagramData) (currentPath : List Position) (penColor : String)
    (pathId : String) : DiagramData :=
  if currentPath.length > 2 then
    { d with paths := some ((d.paths.getD []) ++
        [{ id := pathId, points := currentPath, color := penColor, width := 2 }]) }
  else d

/-- A stroke of exactly two points. -/
def twoPointStroke : List Position :=
  [{ x := 0, y := 0 }, { x := 20, y := 20 }]

/-- The empty document. -/
def emptyDoc : DiagramData := { nodes := [], edges := [], paths := none }

/-- Counterexample to claim C4: a stroke of exactly 2 points, although of
length at least 2, is discarded by pointer up with the pen tool; the
document is unchanged and no path is added. -/
theorem pen_two_point_stroke_discarded :
    twoPointStroke.length = 2 ∧
    penMouseUp emptyDoc twoPointStroke "#000000" "path-1" = emptyDoc ∧
    (penMouseUp emptyDoc twoPointStroke "#000000" "path-1").paths = none := by decide

/-- Amended claim C4: pointer up with the pen tool commits the accumulated
stroke as a new path with the current pen color and fixed width 2 exactly
when it has more than 2 points (at least 3), and discards it, leaving the
document unchanged, when it has 2 points or fewer. -/
theorem pen_commit_threshold (d : DiagramData) (pts : List Position) (c i : String) :
    (2 < pts.length →
      penMouseUp d pts c i =
        { d with paths := some ((d.paths.getD []) ++
            [{ id := i, points := pts, color := c, width := 2 }]) }) ∧
    (pts.length ≤ 2 → penMouseUp d pts c i = d) := by
  constructor
  · intro h
    unfold penMouseUp
    rw [if_pos h]
  · intro h
    unfold penMouseUp
    rw [if_neg (by omega)]

/-- Delete and Backspace branch of the key handler in the Canvas component:
with a non empty selection and no text edit in progress, the selected nodes
are filtered out and every edge whose source or target id is selected is
filtered out; the rest of the document, its paths included, is untouched. -/
def deleteSelection (d : DiagramData) (selectedNodeIds : List String) : DiagramData :=
  { d with
    nodes := d.nodes.filter (fun n => !(memStr selectedNodeIds n.id)),
    edges := d.edges.filter (fun e =>
      !(memStr selectedNodeIds e.fromId) && !(memStr selectedNodeIds e.toId)) }

/-- memStr agrees with list membership. -/
theorem memStr_iff (l : List String) (s : String) : memStr l s = true ↔ s ∈ l := by
  induction l with
  | nil => simp [memStr]
  | cons a rest ih =>
      simp only [memStr, List.mem_cons]
      by_cases h : a = s
      · simp [h]
      · have h2 : ¬ s = a := fun e => h e.symm
        simp [h, h2, ih]

/-- memStr is false exactly on non members. -/
theorem memStr_eq_false_iff (l : List String) (s : String) :
    memStr l s = false ↔ ¬ s ∈ l := by
  rw [← memStr_iff]
  cases memStr l s <;> simp

/-- Claim C6: deleting a non empty selection of node ids removes exactly
the selected nodes; an edge is removed exactly when it touches a removed
node, and survives unchanged otherwise; hence a document without dangling
edges keeps that property, and the paths are untouched. -/
theorem delete_selection_spec (d : DiagramData) (sel : List String)
    (_hne : sel ≠ [])
    (hsub : ∀ s ∈ sel, ∃ n ∈ d.nodes, n.id = s) :
    (∀ n, n ∈ (deleteSelection d sel).nodes ↔ (n ∈ d.nodes ∧ ¬ n.id ∈ sel)) ∧
    (∀ e, e ∈ (deleteSelection d sel).edges ↔
      (e ∈ d.edges ∧ ¬ ∃ n ∈ d.nodes, n.id ∈ sel ∧ (e.fromId = n.id ∨ e.toId = n.id))) ∧
    ((∀ e ∈ d.edges, (∃ n ∈ d.nodes, n.id = e.fromId) ∧ (∃ n ∈ d.nodes, n.id = e.toId)) →
      ∀ e ∈ (deleteSelection d sel).edges,
        (∃ n ∈ (deleteSelection d sel).nodes, n.id = e.fromId) ∧
        (∃ n ∈ (deleteSelection d sel).nodes, n.id = e.toId)) ∧
    (deleteSelection d sel).paths = d.paths := by
  have hmemN : ∀ n : DiagramNode,
      n ∈ (deleteSelection d sel).nodes ↔ (n ∈ d.nodes ∧ ¬ n.id ∈ sel) := by
    intro n
    simp [deleteSelection, List.mem_filter, memStr_eq_false_iff]
  have hmemE : ∀ e : DiagramEdge,
      e ∈ (deleteSelection d sel).edges ↔
        (e ∈ d.edges ∧ ¬ e.fromId ∈ sel ∧ ¬ e.toId ∈ sel) := by
    intro e
    simp [deleteSelection, List.mem_filter, memStr_eq_false_iff, and_assoc]
  refine ⟨hmemN, ?_, ?_, rfl⟩
  · intro e
    rw [hmemE e]
    constructor
    · rintro ⟨he, hf, ht⟩
      refine ⟨he, ?_⟩
      rintro ⟨n, hn, hnsel, hend⟩
      cases hend with
      | inl h1 => exact hf (by rw [h1]; exact hnsel)
      | inr h1 => exact ht (by rw [h1]; exact hnsel)
    · rintro ⟨he, htouch⟩
      refine ⟨he, ?_, ?_⟩
      · intro hf
        obtain ⟨n, hn, hnid⟩ := hsub e.fromId hf
        exact htouch ⟨n, hn, by rw [hnid]; exact hf, Or.inl hnid.symm⟩
      · intro ht
        obtain ⟨n, hn, hnid⟩ := hsub e.toId ht
        exact htouch ⟨n, hn, by rw [hnid]; exact ht, Or.inr hnid.symm⟩
  · intro hvalid e he
    obtain ⟨hein, hf, ht⟩ := (hmemE e).mp he
    obtain ⟨⟨nf, hnf, hnfid⟩, ⟨nt, hnt, hntid⟩⟩ := hvalid e hein
    refine ⟨⟨nf, (hmemN nf).mpr ⟨hnf, ?_⟩, hnfid⟩,
            ⟨nt, (hmemN nt).mpr ⟨hnt, ?_⟩, hntid⟩⟩
    · intro hmem
      exact hf (by rw [← hnfid]; exact hmem)
    · intro hmem
      exact ht (by rw [← hntid]; exact hmem)

/-- A document of the two default rectangles with an edge A to B and a
self loop on B, used to instantiate the cascading delete claim. -/
def delDoc : DiagramData :=
  { nodes := [nodeA, nodeB],
    edges := [{ id := "e1", fromId := "A", toId := "B", label := none },
              { id := "e2", fromId := "B", toId := "B", label := none }],
    paths := none }

/-- Concrete instance discharging the hypotheses of claim C6: deleting the
selection consisting of node A from delDoc. -/
theorem delete_selection_spec_witness :
    (∀ n, n ∈ (deleteSelection delDoc ["A"]).nodes ↔ (n ∈ delDoc.nodes ∧ ¬ n.id ∈ ["A"])) ∧
    (∀ e, e ∈ (deleteSelection delDoc ["A"]).edges ↔
      (e ∈ delDoc.edges ∧
        ¬ ∃ n ∈ delDoc.nodes, n.id ∈ ["A"] ∧ (e.fromId = n.id ∨ e.toId = n.id))) ∧
    ((∀ e ∈ delDoc.edges,
        (∃ n ∈ delDoc.nodes, n.id = e.fromId) ∧ (∃ n ∈ delDoc.nodes, n.id = e.toId)) →
      ∀ e ∈ (deleteSelection delDoc ["A"]).edges,
        (∃ n ∈ (deleteSelection delDoc ["A"]).nodes, n.id = e.fromId) ∧
        (∃ n ∈ (deleteSelection delDoc ["A"]).nodes, n.id = e.toId)) ∧
    (deleteSelection delDoc ["A"]).paths = delDoc.paths :=
  delete_selection_spec delDoc ["A"] (by simp) (by decide)

/-- JSON values, the shape JSON.parse yields for an imported file. -/
inductive Json where
  | null
  | bool (b : Bool)
  | num (n : ℚ)
  | str (s : String)
  | arr (elems : List Json)
  | obj (fields : List (String × Json))

/-- JavaScript truthiness of a parsed JSON value: null, false, zero and
the empty string are falsy, arrays and objects always truthy. -/
def truthy : Json → Bool
  | Json.null => false
  | Json.bool b => b
  | Json.num n => decide (n ≠ 0)
  | Json.str s => decide (s ≠ "")
  | Json.arr _ => true
  | Json.obj _ => true

/-- Array.isArray on a parsed JSON value. -/
def isArray : Json → Bool
  | Json.arr _ => true
  | _ => false

/-- Property lookup on a parsed JSON object, the last duplicate key
winning as JSON.parse resolves duplicates. -/
def jsonLookup : List (String × Json) → String → Option Json
  | [], _ => none
  | (k, v) :: rest, key =>
      match jsonLookup rest key with
      | some r => some r
      | none => if k = key then some v else none

/-- The validation of handleImport in the DiagramEditor component: the
parsed value must have a truthy nodes property that Array.isArray accepts;
property access on a non object yields undefined and fails the check. -/
def validateImport : Json → Bool
  | Json.obj fields =>
      match jsonLookup fields "nodes" with
      | none => false
      | some v => truthy v && isArray v
  | _ => false

/-- handleImport of the DiagramEditor component over the history state:
a file that does not parse (none) or fails validation leaves the history
untouched (the thrown error is caught and only surfaced as a message);
a valid parse is committed through setState. -/
def handleImport (h : HistoryState Json) (parsed : Option Json) : HistoryState Json :=
  match parsed with
  | none => h
  | some j => if validateImport j then commit h j else h

/-- Claim C7: importing a file whose JSON has no top level nodes field,
such as an object with only an edges field, fails validation, and the
history state, its present document included, is exactly what it was
before the import attempt: no commit occurs. -/
theorem import_missing_nodes_rejected :
    validateImport (Json.obj [("edges", Json.arr [])]) = false ∧
    ∀ (h : HistoryState Json),
      handleImport h (some (Json.obj [("edges", Json.arr [])])) = h := by
  constructor
  · rfl
  · intro h
    rfl

end Diagrammer
